import Mathlib

/-!
Verification of the nonlinear-operation lookup catalog (`src/circuit/ops/lookup.rs`)
of the ezkl zero-knowledge circuit compiler.

The embedding mirrors `LookupOp` and its methods `bit_range`, `as_path`, `f`
(the forward evaluator) and the `Op::out_scale` implementation.  External
collaborators that are not part of the analysed source (the tensor container,
the fixed-point codec `fieldutils`, the numeric kernels in
`tensor::ops::nonlinearities`, the float wrapper `utils::F32`, and
`graph::multiplier_to_scale`) are modelled from the specification, as noted on
each definition.
-/

namespace Ezkl

/-- Modelled from the spec: the signed fixed-point integer representation
(`fieldutils::IntegerRep`), a signed machine integer, modelled as `Int`. -/
abbrev IntegerRep := Int

/-- Modelled from the spec: a field-encoded value.  The spec's invariant is that
the external codec `felt_to_integer_rep` / `integer_rep_to_felt` is a lossless
round trip for every value actually produced, so field-encoded values are
identified with their signed integer representations. -/
abbrev Felt := Int

/-- Modelled from the spec: `fieldutils::felt_to_integer_rep`, the decode half of
the lossless fixed-point codec. -/
def felt_to_integer_rep (x : Felt) : IntegerRep := x

/-- Modelled from the spec: `fieldutils::integer_rep_to_felt`, the encode half of
the lossless fixed-point codec. -/
def integer_rep_to_felt (x : IntegerRep) : Felt := x

/-- Modelled from the spec: the generic tensor container — a shape together with
the element data, supporting element-wise mapping. -/
structure Tensor (α : Type) where
  shape : List Nat
  data : List α
  deriving DecidableEq

/-- Modelled from the spec: element-wise mapping on the tensor container,
preserving the shape. -/
def Tensor.map {α β : Type} (t : Tensor α) (g : α → β) : Tensor β :=
  ⟨t.shape, t.data.map g⟩

/-- Modelled from the spec: the tensor error type (`tensor::TensorError`); only
its existence matters here, since every dispatch arm of the evaluator wraps its
result in `Ok`. -/
inductive TensorError : Type where
  | error (msg : String)
  deriving DecidableEq

/-- `ForwardResult`: the output container of field-encoded values produced by
evaluation. -/
structure ForwardResult (α : Type) where
  output : Tensor α
  deriving DecidableEq

/-- Modelled from the spec: the quantization-multiplier wrapper `utils::F32`
("a floating value wrapped to guarantee total equality, hashing, and
ordering").  It is modelled as an exact rational number, which gives the total,
canonical equality the spec requires of the wrapper. -/
abbrev F32 := ℚ

/-- The operation catalog `LookupOp` of `lookup.rs`: the closed set of nonlinear
operation variants with their quantization-multiplier parameters. -/
inductive LookupOp : Type where
  | Div (denom : F32)
  | Cast (scale : F32)
  | Ceil (scale : F32)
  | Floor (scale : F32)
  | Round (scale : F32)
  | RoundHalfToEven (scale : F32)
  | Sqrt (scale : F32)
  | Rsqrt (scale : F32)
  | Recip (input_scale : F32) (output_scale : F32)
  | LeakyReLU (slope : F32)
  | Sigmoid (scale : F32)
  | Ln (scale : F32)
  | Exp (scale : F32)
  | Cos (scale : F32)
  | ACos (scale : F32)
  | Cosh (scale : F32)
  | ACosh (scale : F32)
  | Sin (scale : F32)
  | ASin (scale : F32)
  | Sinh (scale : F32)
  | ASinh (scale : F32)
  | Tan (scale : F32)
  | ATan (scale : F32)
  | Tanh (scale : F32)
  | ATanh (scale : F32)
  | Erf (scale : F32)
  | KroneckerDelta
  | Pow (scale : F32) (a : F32)
  | HardSwish (scale : F32)
  deriving DecidableEq

/-! ### Table range deriver (`LookupOp::bit_range`)

The source computes `let range = (max_len - 1) as f64 / 2_f64; let range =
range as IntegerRep; (-range, range)`.  The `usize → f64` conversion rounds to
the nearest representable double (ties to even); dividing a non-negative
integral double by two is exact, and the cast to the integer representation
truncates toward zero.  The conversion is modelled exactly over `ℕ`:
`f64roundNat n` is the value of `n as f64` for `n` below the overflow range, so
`bit_range` is `fun maxLen => (-(h : ℤ), h)` with
`h = f64roundNat (maxLen - 1) / 2` (natural division realizing the exact
halving followed by truncation toward zero). -/

/-- Number of halvings needed to bring `m` strictly below `2^53`; the first
argument is structural fuel (any fuel `≥ log2 m` computes the same value, and
the callers pass `m` itself).  For `m ≥ 2^53` this is the base-two exponent of
the unit in the last place of the `f64` nearest to `m`. -/
def ulpExpAux : ℕ → ℕ → ℕ
  | 0, _ => 0
  | fuel + 1, m => if m < 2 ^ 53 then 0 else ulpExpAux fuel (m / 2) + 1

/-- The value of the Rust conversion `n as f64` for a natural `n`, expressed as
a natural number: `n` is rounded to the nearest multiple of the ulp
`2^(ulpExpAux n n)`, ties going to the even multiple (roundTiesToEven). -/
def f64roundNat (n : ℕ) : ℕ :=
  let k := ulpExpAux n n
  if k = 0 then n
  else
    let u := 2 ^ k
    let q := n / u
    let r := n % u
    if 2 * r < u then q * u
    else if u < 2 * r then (q + 1) * u
    else if q % 2 = 0 then q * u else (q + 1) * u

/-- `LookupOp::bit_range`: the inclusive integer range a table of `max_len`
entries covers.  Mirrors the source's float computation: `(max_len - 1) as f64`
(the rounding modelled by `f64roundNat`), exact division by two, truncation
toward zero.  The subtraction is natural-number truncated subtraction; the
source's `usize` subtraction underflows for `max_len = 0`, a case outside every
statement below (the spec requires `max_len ≥ 1`). -/
def LookupOp.bit_range (max_len : ℕ) : IntegerRep × IntegerRep :=
  let range : ℕ := f64roundNat (max_len - 1) / 2
  (-(range : ℤ), (range : ℤ))

theorem ulpExpAux_eq_zero_of_lt (fuel m : ℕ) (h : m < 2 ^ 53) :
    ulpExpAux fuel m = 0 := by
  cases fuel with
  | zero => rfl
  | succ f => simp only [ulpExpAux, if_pos h]

theorem f64roundNat_of_lt {n : ℕ} (h : n < 2 ^ 53) : f64roundNat n = n := by
  unfold f64roundNat
  simp [ulpExpAux_eq_zero_of_lt n n h]

/-- C5 (amended): for `1 ≤ max_len ≤ 2^53` the intermediate `(max_len - 1) as
f64` is exact, so `bit_range max_len = (-half, half)` with
`half = ⌊(max_len - 1) / 2⌋` computed exactly; in particular
`bit_range 7 = (-3, 3)`, `bit_range 8 = (-3, 3)` and `bit_range 1 = (0, 0)`.
(The unamended claim, for every `max_len ≥ 1`, fails beyond `2^53`: see the
counterexample.) -/
theorem bit_range_exact (max_len : ℕ) (h1 : 1 ≤ max_len) (h2 : max_len ≤ 2 ^ 53) :
    LookupOp.bit_range max_len =
      (-(((max_len - 1) / 2 : ℕ) : ℤ), (((max_len - 1) / 2 : ℕ) : ℤ)) := by
  unfold LookupOp.bit_range
  rw [f64roundNat_of_lt (by omega)]

/-- Witness for `bit_range_exact` at `max_len = 7`, checking the spec's example
`bit_range 7 = (-3, 3)`. -/
theorem bit_range_exact_witness :
    1 ≤ 7 ∧ 7 ≤ 2 ^ 53 ∧ LookupOp.bit_range 7 = (-3, 3) := by
  refine ⟨by norm_num, by norm_num, ?_⟩
  have h := bit_range_exact 7 (by norm_num) (by norm_num)
  simpa using h

/-- C5 counterexample: at `max_len = 2^53 + 4` the source's `f64` computation
rounds `max_len - 1 = 2^53 + 3` up to `2^53 + 4` (ties to even), so the half
range comes out as `2^52 + 2`, while the claimed exact integer arithmetic gives
`⌊(max_len - 1) / 2⌋ = 2^52 + 1`. -/
theorem bit_range_float_divergence :
    LookupOp.bit_range (2 ^ 53 + 4) = (-(2 ^ 52 + 2 : ℤ), (2 ^ 52 + 2 : ℤ)) ∧
    ((2 ^ 53 + 4 - 1) / 2 : ℕ) = 2 ^ 52 + 1 ∧
    (2 ^ 52 + 2 : ℤ) ≠ (2 ^ 52 + 1 : ℤ) := by
  refine ⟨by decide, by decide, by decide⟩

/-! ### Scale propagation (`Op::out_scale` for `LookupOp`) -/

/-- `Op::out_scale` for `LookupOp`.  The external conversion
`graph::multiplier_to_scale` is passed as the parameter `m2s`; the source's
`1. / scale.0 as f64` is exact rational division here, and
`output_scale.into()` (an `f32 → f64` widening) is the identity on exact
rationals.  The slice indexing `inputs_scale[0]` panics on an empty vector,
modelled by `Option` (`none` = panic); note only the `Cast` and default arms
read `inputs_scale[0]`. -/
def LookupOp.out_scale (m2s : ℚ → ℤ) (op : LookupOp) (inputs_scale : List ℤ) :
    Option ℤ :=
  match op with
  | .Cast scale => (inputs_scale.head?).map (fun in_scale => in_scale + m2s (1 / scale))
  | .Recip _ output_scale => some (m2s output_scale)
  | .KroneckerDelta => some 0
  | _ => inputs_scale.head?

/-- C4: for every operation and every non-empty scale list, `out_scale`
succeeds and returns `input_scales[0] + multiplier_to_scale (1 / scale)` for
`Cast`, `multiplier_to_scale output_scale` for `Recip` (ignoring the input
scale), `0` for `KroneckerDelta`, and `input_scales[0]` unchanged for every
other variant. -/
theorem out_scale_spec (m2s : ℚ → ℤ) (op : LookupOp) (s : List ℤ) (hs : s ≠ []) :
    (op.out_scale m2s s).isSome = true ∧
    op.out_scale m2s s = some (match op with
      | .Cast scale => s.head hs + m2s (1 / scale)
      | .Recip _ output_scale => m2s output_scale
      | .KroneckerDelta => 0
      | _ => s.head hs) := by
  obtain ⟨a, t, rfl⟩ := List.exists_cons_of_ne_nil hs
  cases op <;> simp [LookupOp.out_scale]

/-- Witness for `out_scale_spec`: `KroneckerDelta` on `[7]` yields scale `0`. -/
theorem out_scale_spec_witness :
    ([7] : List ℤ) ≠ [] ∧
    LookupOp.KroneckerDelta.out_scale (fun q => q.num) [7] = some 0 := by
  refine ⟨by decide, ?_⟩
  exact (out_scale_spec (fun q => q.num) .KroneckerDelta [7] (by decide)).2

/-- C9: `out_scale` depends only on the first element of the scale list: two
non-empty lists with equal heads produce equal results, for every operation. -/
theorem out_scale_first_scale_only (m2s : ℚ → ℤ) (op : LookupOp)
    (s1 s2 : List ℤ) (h1 : s1 ≠ []) (h2 : s2 ≠ [])
    (h : s1.head h1 = s2.head h2) :
    op.out_scale m2s s1 = op.out_scale m2s s2 := by
  obtain ⟨a, t, rfl⟩ := List.exists_cons_of_ne_nil h1
  obtain ⟨b, u, rfl⟩ := List.exists_cons_of_ne_nil h2
  simp only [List.head_cons] at h
  subst h
  cases op <;> simp [LookupOp.out_scale]

/-- Witness for `out_scale_first_scale_only`: lists `[4, 9]` and `[4]` with
equal heads give the same `Sigmoid` output scale. -/
theorem out_scale_first_scale_only_witness :
    ([4, 9] : List ℤ) ≠ [] ∧ ([4] : List ℤ) ≠ [] ∧
    (LookupOp.Sigmoid 1).out_scale (fun q => q.num) [4, 9] =
      (LookupOp.Sigmoid 1).out_scale (fun q => q.num) [4] := by
  refine ⟨by decide, by decide, ?_⟩
  exact out_scale_first_scale_only (fun q => q.num) (.Sigmoid 1) [4, 9] [4]
    (by decide) (by decide) (by decide)

/-! ### Forward evaluator (`LookupOp::f`)

The dispatch arms of `LookupOp::f` call the per-variant numeric kernels of the
external module `tensor::ops::nonlinearities`.  Those kernels are not part of
the analysed source; following the spec (§4.4: decode each value, apply the
variant's pure numeric function, re-encode) they are modelled as element-wise
integer functions, gathered in a record that `f` takes as a parameter, exactly
as the source imports them. -/

/-- Modelled from the spec: the external per-variant numeric kernels of
`tensor::ops::nonlinearities`, as element-wise functions on the signed integer
representation, each parameterized by its declared scale(s) (the source's `f64`
scales are exact rationals here). -/
structure Nonlinearities : Type where
  ceil : ℚ → ℤ → ℤ
  floor : ℚ → ℤ → ℤ
  round : ℚ → ℤ → ℤ
  round_half_to_even : ℚ → ℤ → ℤ
  pow : ℚ → ℚ → ℤ → ℤ
  kronecker_delta : ℤ → ℤ
  const_div : ℚ → ℤ → ℤ
  recip : ℚ → ℚ → ℤ → ℤ
  leakyrelu : ℚ → ℤ → ℤ
  sigmoid : ℚ → ℤ → ℤ
  sqrt : ℚ → ℤ → ℤ
  rsqrt : ℚ → ℤ → ℤ
  erffunc : ℚ → ℤ → ℤ
  exp : ℚ → ℤ → ℤ
  ln : ℚ → ℤ → ℤ
  cos : ℚ → ℤ → ℤ
  acos : ℚ → ℤ → ℤ
  cosh : ℚ → ℤ → ℤ
  acosh : ℚ → ℤ → ℤ
  sin : ℚ → ℤ → ℤ
  asin : ℚ → ℤ → ℤ
  sinh : ℚ → ℤ → ℤ
  asinh : ℚ → ℤ → ℤ
  tan : ℚ → ℤ → ℤ
  atan : ℚ → ℤ → ℤ
  atanh : ℚ → ℤ → ℤ
  tanh : ℚ → ℤ → ℤ
  hardswish : ℚ → ℤ → ℤ

/-- `LookupOp::f`, the forward evaluator.  Mirrors the source: it first clones
and decodes `x[0]` (the slice indexing panics on an empty slice, modelled by
the outer `Option`; no arity check is performed and any further tensors are
never read), dispatches on the variant — every arm wrapping its result in
`Ok` — applies the `?` operator to the (always-`Ok`) result, re-encodes, and
wraps the output in `ForwardResult`. -/
def LookupOp.f (K : Nonlinearities) (op : LookupOp) (x : List (Tensor Felt)) :
    Option (Except TensorError (ForwardResult Felt)) :=
  match x.head? with
  | none => none
  | some x0 =>
    let xi : Tensor IntegerRep := x0.map (fun v => felt_to_integer_rep v)
    let res : Except TensorError (Tensor IntegerRep) :=
      match op with
      | .Ceil scale => .ok (xi.map (K.ceil scale))
      | .Floor scale => .ok (xi.map (K.floor scale))
      | .Round scale => .ok (xi.map (K.round scale))
      | .RoundHalfToEven scale => .ok (xi.map (K.round_half_to_even scale))
      | .Pow scale a => .ok (xi.map (K.pow scale a))
      | .KroneckerDelta => .ok (xi.map K.kronecker_delta)
      | .Div denom => .ok (xi.map (K.const_div denom))
      | .Cast scale => .ok (xi.map (K.const_div scale))
      | .Recip input_scale output_scale => .ok (xi.map (K.recip input_scale output_scale))
      | .LeakyReLU a => .ok (xi.map (K.leakyrelu a))
      | .Sigmoid scale => .ok (xi.map (K.sigmoid scale))
      | .Sqrt scale => .ok (xi.map (K.sqrt scale))
      | .Rsqrt scale => .ok (xi.map (K.rsqrt scale))
      | .Erf scale => .ok (xi.map (K.erffunc scale))
      | .Exp scale => .ok (xi.map (K.exp scale))
      | .Ln scale => .ok (xi.map (K.ln scale))
      | .Cos scale => .ok (xi.map (K.cos scale))
      | .ACos scale => .ok (xi.map (K.acos scale))
      | .Cosh scale => .ok (xi.map (K.cosh scale))
      | .ACosh scale => .ok (xi.map (K.acosh scale))
      | .Sin scale => .ok (xi.map (K.sin scale))
      | .ASin scale => .ok (xi.map (K.asin scale))
      | .Sinh scale => .ok (xi.map (K.sinh scale))
      | .ASinh scale => .ok (xi.map (K.asinh scale))
      | .Tan scale => .ok (xi.map (K.tan scale))
      | .ATan scale => .ok (xi.map (K.atan scale))
      | .ATanh scale => .ok (xi.map (K.atanh scale))
      | .Tanh scale => .ok (xi.map (K.tanh scale))
      | .HardSwish scale => .ok (xi.map (K.hardswish scale))
    match res with
    | .ok r => some (.ok ⟨r.map (fun v => integer_rep_to_felt v)⟩)
    | .error e => some (.error e)

/-! ### Reference kernel instantiation

A concrete instantiation of the external kernels, used by closed statements.
The rounding kernels, `kronecker_delta`, `const_div`, `leakyrelu` and `recip`
follow the spec's stated semantics; the spec fixes no formula for the
remaining approximation kernels (`sigmoid`, `sqrt`, the trig families, …) —
they are instantiated with the identity on the integer representation, and no
claim below depends on those fields' values (statements about the dispatch
quantify over every `Nonlinearities` record). -/

/-- Truncation of a rational toward zero, the behaviour of Rust's `as` cast
from `f64` to a signed integer (within range). -/
def ratTrunc (q : ℚ) : ℤ := if 0 ≤ q then ⌊q⌋ else ⌈q⌉

/-- Rounding to the nearest integer with ties away from zero — the semantics of
Rust's `f64::round`, used by the spec for the `Round` kernel. -/
def roundAwayFromZero (q : ℚ) : ℤ :=
  if 0 ≤ q then ⌊q + 1 / 2⌋ else ⌈q - 1 / 2⌉

/-- Rounding to the nearest integer with ties to the nearest even integer — the
semantics the spec prescribes for the `RoundHalfToEven` kernel. -/
def roundTiesToEven (q : ℚ) : ℤ :=
  if q - ⌊q⌋ < 1 / 2 then ⌊q⌋
  else if 1 / 2 < q - ⌊q⌋ then ⌊q⌋ + 1
  else if ⌊q⌋ % 2 = 0 then ⌊q⌋ else ⌊q⌋ + 1

/-- Modelled from the spec: `nonlinearities::round` — round `x / scale` to the
nearest integer, ties away from zero, rescale, truncate to the integer
representation. -/
def round_kernel (scale : ℚ) (x : ℤ) : ℤ :=
  ratTrunc (roundAwayFromZero ((x : ℚ) / scale) * scale)

/-- Modelled from the spec: `nonlinearities::round_half_to_even` — round
`x / scale` to the nearest integer, ties to the nearest even integer, rescale,
truncate. -/
def round_half_to_even_kernel (scale : ℚ) (x : ℤ) : ℤ :=
  ratTrunc (roundTiesToEven ((x : ℚ) / scale) * scale)

/-- Modelled from the spec: `nonlinearities::kronecker_delta` — `1` where the
input equals `0`, else `0`; scale-independent. -/
def kronecker_delta_kernel (x : ℤ) : ℤ := if x = 0 then 1 else 0

/-- Modelled from the spec: `nonlinearities::const_div` — division by a
constant in the fixed-point domain (rounded to the nearest integer
representative). -/
def const_div_kernel (denom : ℚ) (x : ℤ) : ℤ :=
  roundAwayFromZero ((x : ℚ) / denom)

/-- Modelled from the spec: `nonlinearities::leakyrelu` — `x` if `x ≥ 0`, else
`slope * x`, in fixed point. -/
def leakyrelu_kernel (slope : ℚ) (x : ℤ) : ℤ :=
  if 0 ≤ x then x else roundAwayFromZero (slope * (x : ℚ))

/-- Modelled from the spec: `nonlinearities::recip` — reciprocal, re-quantizing
from `input_scale` to `output_scale`. -/
def recip_kernel (input_scale output_scale : ℚ) (x : ℤ) : ℤ :=
  roundAwayFromZero (input_scale * output_scale / (x : ℚ))

/-- The reference kernel instantiation described above. -/
def refNonlinearities : Nonlinearities where
  ceil := fun _ x => x
  floor := fun _ x => x
  round := round_kernel
  round_half_to_even := round_half_to_even_kernel
  pow := fun _ _ x => x
  kronecker_delta := kronecker_delta_kernel
  const_div := const_div_kernel
  recip := recip_kernel
  leakyrelu := leakyrelu_kernel
  sigmoid := fun _ x => x
  sqrt := fun _ x => x
  rsqrt := fun _ x => x
  erffunc := fun _ x => x
  exp := fun _ x => x
  ln := fun _ x => x
  cos := fun _ x => x
  acos := fun _ x => x
  cosh := fun _ x => x
  acosh := fun _ x => x
  sin := fun _ x => x
  asin := fun _ x => x
  sinh := fun _ x => x
  asinh := fun _ x => x
  tan := fun _ x => x
  atan := fun _ x => x
  atanh := fun _ x => x
  tanh := fun _ x => x
  hardswish := fun _ x => x

/-- C2: the evaluator is deterministic — for every kernel record, every
operation, and every integer in a declared bit range, any two evaluations of
the same `(operation, input)` pair coincide; in the embedding the evaluator is
a pure function of that pair. -/
theorem f_deterministic (K : Nonlinearities) (op : LookupOp) (max_len : ℕ)
    (x : IntegerRep)
    (_hlo : (LookupOp.bit_range max_len).1 ≤ x)
    (_hhi : x ≤ (LookupOp.bit_range max_len).2)
    (inputs1 inputs2 : List (Tensor Felt))
    (h1 : inputs1 = [⟨[], [integer_rep_to_felt x]⟩])
    (h2 : inputs2 = [⟨[], [integer_rep_to_felt x]⟩]) :
    LookupOp.f K op inputs1 = LookupOp.f K op inputs2 := by
  rw [h1, h2]

/-- Witness for `f_deterministic`: `Sigmoid` at `x = 2` in the range of a
7-entry table. -/
theorem f_deterministic_witness :
    (LookupOp.bit_range 7).1 ≤ 2 ∧ (2 : ℤ) ≤ (LookupOp.bit_range 7).2 ∧
    LookupOp.f refNonlinearities (.Sigmoid 1) [⟨[], [integer_rep_to_felt 2]⟩] =
      LookupOp.f refNonlinearities (.Sigmoid 1) [⟨[], [integer_rep_to_felt 2]⟩] := by
  refine ⟨by decide, by decide, ?_⟩
  exact f_deterministic refNonlinearities (.Sigmoid 1) 7 2 (by decide) (by decide)
    _ _ rfl rfl

/-- C3 (amended): the evaluator performs no arity check.  Given at least one
input tensor it succeeds, reading only the first tensor (extra tensors are
ignored rather than rejected); given zero tensors it fails by an out-of-bounds
index panic, not by returning a shape error. -/
theorem f_arity_unchecked (K : Nonlinearities) (op : LookupOp)
    (t : Tensor Felt) (rest : List (Tensor Felt)) :
    (∃ r, LookupOp.f K op (t :: rest) = some (.ok r)) ∧
    LookupOp.f K op (t :: rest) = LookupOp.f K op [t] ∧
    LookupOp.f K op [] = none := by
  refine ⟨?_, rfl, rfl⟩
  cases op <;> exact ⟨_, rfl⟩

/-- C3 counterexample: the claim asserts a shape/arity failure whenever the
input count is not `1`, but evaluating `KroneckerDelta` on two tensors
succeeds (the second tensor is simply ignored). -/
theorem f_two_inputs_ok :
    LookupOp.f refNonlinearities .KroneckerDelta
      [⟨[1], [0]⟩, ⟨[1], [5]⟩] = some (.ok ⟨⟨[1], [1]⟩⟩) := by
  rfl

/-- C10: for every kernel record, operation and input list holding at least one
tensor, the evaluator returns `Ok` and never the `TensorError` branch, and any
tensors beyond the first are ignored rather than rejected. -/
theorem f_always_ok (K : Nonlinearities) (op : LookupOp)
    (t : Tensor Felt) (rest : List (Tensor Felt)) :
    (∀ e : TensorError, LookupOp.f K op (t :: rest) ≠ some (.error e)) ∧
    (LookupOp.f K op (t :: rest)).isSome = true ∧
    LookupOp.f K op (t :: rest) = LookupOp.f K op [t] := by
  refine ⟨?_, ?_, rfl⟩
  · intro e
    cases op <;> simp [LookupOp.f]
  · cases op <;> simp [LookupOp.f]

/-- C7: `Cast {scale: c}` and `Div {denom: c}` evaluate identically on every
input — both dispatch to the same constant fixed-point division kernel with
the same parameter — for every kernel record. -/
theorem cast_eq_div (K : Nonlinearities) (c : F32) (inputs : List (Tensor Felt)) :
    LookupOp.f K (.Cast c) inputs = LookupOp.f K (.Div c) inputs := by
  cases inputs with
  | nil => rfl
  | cons t rest => rfl

/-- C8: a successful evaluation returns a tensor with exactly the shape and
element count of the first input tensor — the evaluator is decode, element-wise
map, re-encode. -/
theorem f_preserves_shape (K : Nonlinearities) (op : LookupOp)
    (inputs : List (Tensor Felt)) (t : Tensor Felt)
    (ht : inputs.head? = some t) (r : ForwardResult Felt)
    (hr : LookupOp.f K op inputs = some (.ok r)) :
    r.output.shape = t.shape ∧ r.output.data.length = t.data.length := by
  unfold LookupOp.f at hr
  rw [ht] at hr
  cases op <;>
    (simp only [Option.some.injEq, Except.ok.injEq] at hr
     subst hr
     simp [Tensor.map])

/-- Witness for `f_preserves_shape`: `Sigmoid` on a two-element tensor of shape
`[2]`. -/
theorem f_preserves_shape_witness :
    ([(⟨[2], [3, 4]⟩ : Tensor Felt)].head? = some ⟨[2], [3, 4]⟩) ∧
    LookupOp.f refNonlinearities (.Sigmoid 1) [⟨[2], [3, 4]⟩] =
      some (.ok ⟨⟨[2], [3, 4]⟩⟩) ∧
    ((⟨⟨[2], [3, 4]⟩⟩ : ForwardResult Felt).output.shape =
        (⟨[2], [3, 4]⟩ : Tensor Felt).shape ∧
      (⟨⟨[2], [3, 4]⟩⟩ : ForwardResult Felt).output.data.length =
        (⟨[2], [3, 4]⟩ : Tensor Felt).data.length) := by
  refine ⟨rfl, rfl, ?_⟩
  exact f_preserves_shape refNonlinearities (.Sigmoid 1) [⟨[2], [3, 4]⟩]
    ⟨[2], [3, 4]⟩ rfl ⟨⟨[2], [3, 4]⟩⟩ rfl

/-- C6: at exact half-integer boundaries the `Round` kernel resolves ties away
from zero while the `RoundHalfToEven` kernel resolves ties to the nearest even
integer, and the two operations diverge on a boundary input: at scale `2` the
fixed-point value `1` (representing `1/2`) rounds to `2` under `Round` but to
`0` under `RoundHalfToEven`. -/
theorem round_tie_behavior :
    (∀ k : ℤ, roundAwayFromZero ((k : ℚ) + 1 / 2) = if 0 ≤ k then k + 1 else k) ∧
    (∀ k : ℤ, roundTiesToEven ((k : ℚ) + 1 / 2) = if k % 2 = 0 then k else k + 1) ∧
    LookupOp.f refNonlinearities (.Round 2) [⟨[1], [1]⟩] =
      some (.ok ⟨⟨[1], [2]⟩⟩) ∧
    LookupOp.f refNonlinearities (.RoundHalfToEven 2) [⟨[1], [1]⟩] =
      some (.ok ⟨⟨[1], [0]⟩⟩) ∧
    ((2 : ℤ) ≠ 0) := by
  refine ⟨?_, ?_,
    by norm_num [LookupOp.f, refNonlinearities, Tensor.map, felt_to_integer_rep,
      integer_rep_to_felt, round_kernel, roundAwayFromZero, ratTrunc],
    by norm_num [LookupOp.f, refNonlinearities, Tensor.map, felt_to_integer_rep,
      integer_rep_to_felt, round_half_to_even_kernel, roundTiesToEven, ratTrunc],
    by decide⟩
  · intro k
    unfold roundAwayFromZero
    by_cases hk : 0 ≤ k
    · rw [if_pos hk, if_pos (by positivity)]
      have : (k : ℚ) + 1 / 2 + 1 / 2 = ((k + 1 : ℤ) : ℚ) := by push_cast; ring
      rw [this, Int.floor_intCast]
    · rw [if_neg hk, if_neg (by
        push_neg
        have hk1 : k ≤ -1 := by omega
        have : (k : ℚ) ≤ -1 := by exact_mod_cast hk1
        linarith)]
      have : (k : ℚ) + 1 / 2 - 1 / 2 = ((k : ℤ) : ℚ) := by ring
      rw [this, Int.ceil_intCast]
  · intro k
    unfold roundTiesToEven
    have hfl : ⌊(k : ℚ) + 1 / 2⌋ = k := by
      rw [add_comm, Int.floor_add_int]
      norm_num
    rw [hfl]
    have hfrac : (k : ℚ) + 1 / 2 - k = 1 / 2 := by ring
    rw [hfrac]
    norm_num

/-! ### Canonical identifier (`LookupOp::as_path`)

`as_path` renders each variant as a lowercase, underscore-joined name followed
by the rendered parameter values.  The parameter rendering itself is the
`Display` of the external float wrapper `utils::F32` (Rust's shortest
round-trip decimal, a numeral over digits, `-`, `.`); it is modelled from the
spec as an injective decimal rendering of the exact rational parameter over
the same character alphabet. -/

/-- The character for a decimal digit `d < 10`. -/
def digitChar (d : ℕ) : Char := Char.ofNat (48 + d)

/-- Decimal numeral of a natural number, most significant digit first. -/
def natChars (n : ℕ) : List Char :=
  if n = 0 then ['0'] else (Nat.digits 10 n).reverse.map digitChar

/-- Decimal numeral of an integer: an optional leading minus sign. -/
def intChars (z : ℤ) : List Char :=
  if z < 0 then '-' :: natChars z.natAbs else natChars z.natAbs

/-- Modelled from the spec: the rendering of one quantization-multiplier
parameter (the `Display` of `utils::F32`).  A parameter with denominator `1`
renders as a plain integer (the spec's example: a sigmoid with scale `4.0`
yields `"sigmoid_4"`); otherwise the numerator and denominator are joined by
the decimal point.  The rendering is injective and uses only digits, `-`
and `.` — in particular never `_` or a letter. -/
def paramChars (q : ℚ) : List Char :=
  if q.den = 1 then intChars q.num else intChars q.num ++ '.' :: natChars q.den

/-- String form of the parameter rendering. -/
def fmtF32 (q : F32) : String := ⟨paramChars q⟩

/-- `LookupOp::as_path`: the canonical cache/asset key of an operation. -/
def LookupOp.as_path : LookupOp → String
  | .Ceil scale => "ceil_" ++ fmtF32 scale
  | .Floor scale => "floor_" ++ fmtF32 scale
  | .Round scale => "round_" ++ fmtF32 scale
  | .RoundHalfToEven scale => "round_half_to_even_" ++ fmtF32 scale
  | .Pow scale a => "pow_" ++ fmtF32 scale ++ "_" ++ fmtF32 a
  | .KroneckerDelta => "kronecker_delta"
  | .Div denom => "div_" ++ fmtF32 denom
  | .Cast scale => "cast_" ++ fmtF32 scale
  | .Recip input_scale output_scale =>
      "recip_" ++ fmtF32 input_scale ++ "_" ++ fmtF32 output_scale
  | .LeakyReLU a => "leaky_relu_" ++ fmtF32 a
  | .Sigmoid scale => "sigmoid_" ++ fmtF32 scale
  | .Sqrt scale => "sqrt_" ++ fmtF32 scale
  | .Rsqrt scale => "rsqrt_" ++ fmtF32 scale
  | .Erf scale => "erf_" ++ fmtF32 scale
  | .Exp scale => "exp_" ++ fmtF32 scale
  | .Ln scale => "ln_" ++ fmtF32 scale
  | .Cos scale => "cos_" ++ fmtF32 scale
  | .ACos scale => "acos_" ++ fmtF32 scale
  | .Cosh scale => "cosh_" ++ fmtF32 scale
  | .ACosh scale => "acosh_" ++ fmtF32 scale
  | .Sin scale => "sin_" ++ fmtF32 scale
  | .ASin scale => "asin_" ++ fmtF32 scale
  | .Sinh scale => "sinh_" ++ fmtF32 scale
  | .ASinh scale => "asinh_" ++ fmtF32 scale
  | .Tan scale => "tan_" ++ fmtF32 scale
  | .ATan scale => "atan_" ++ fmtF32 scale
  | .ATanh scale => "atanh_" ++ fmtF32 scale
  | .Tanh scale => "tanh_" ++ fmtF32 scale
  | .HardSwish scale => "hardswish_" ++ fmtF32 scale

/-! #### Injectivity of the parameter rendering -/

theorem digitChar_toNat : ∀ d, d < 10 → (digitChar d).toNat = 48 + d := by decide

/-- Recover the natural number from its decimal numeral (left inverse of
`natChars`). -/
def unNatChars (l : List Char) : ℕ :=
  Nat.ofDigits 10 (l.reverse.map (fun c => c.toNat - 48))

theorem unNatChars_natChars (n : ℕ) : unNatChars (natChars n) = n := by
  unfold unNatChars natChars
  by_cases h : n = 0
  · subst h; simp [Nat.ofDigits]
  · rw [if_neg h]
    simp only [List.map_reverse, List.reverse_reverse, List.map_map]
    have hmap : (Nat.digits 10 n).map ((fun c => c.toNat - 48) ∘ digitChar) =
        Nat.digits 10 n := by
      conv_rhs => rw [← List.map_id (Nat.digits 10 n)]
      apply List.map_congr_left
      intro d hd
      have hd10 : d < 10 := Nat.digits_lt_base (by norm_num) hd
      simp [Function.comp, digitChar_toNat d hd10]
    rw [hmap, Nat.ofDigits_digits]

theorem natChars_inj {m n : ℕ} (h : natChars m = natChars n) : m = n := by
  have := congrArg unNatChars h
  rwa [unNatChars_natChars, unNatChars_natChars] at this

theorem natChars_mem_digit {n : ℕ} {c : Char} (hc : c ∈ natChars n) :
    48 ≤ c.toNat ∧ c.toNat ≤ 57 := by
  unfold natChars at hc
  by_cases h : n = 0
  · rw [if_pos h] at hc
    simp at hc
    subst hc; decide
  · rw [if_neg h] at hc
    rw [List.mem_map] at hc
    obtain ⟨d, hd, rfl⟩ := hc
    rw [List.mem_reverse] at hd
    have hd10 : d < 10 := Nat.digits_lt_base (by norm_num) hd
    rw [digitChar_toNat d hd10]
    omega

theorem intChars_mem {z : ℤ} {c : Char} (hc : c ∈ intChars z) :
    c = '-' ∨ (48 ≤ c.toNat ∧ c.toNat ≤ 57) := by
  unfold intChars at hc
  by_cases h : z < 0
  · rw [if_pos h] at hc
    rcases List.mem_cons.mp hc with h' | h'
    · exact Or.inl h'
    · exact Or.inr (natChars_mem_digit h')
  · rw [if_neg h] at hc
    exact Or.inr (natChars_mem_digit hc)

theorem intChars_inj {y z : ℤ} (h : intChars y = intChars z) : y = z := by
  unfold intChars at h
  by_cases hy : y < 0 <;> by_cases hz : z < 0
  · rw [if_pos hy, if_pos hz] at h
    have := natChars_inj (List.cons.inj h).2
    omega
  · rw [if_pos hy, if_neg hz] at h
    exfalso
    have hmem : '-' ∈ natChars z.natAbs := h ▸ List.mem_cons_self '-' _
    exact absurd (natChars_mem_digit hmem) (by decide)
  · rw [if_neg hy, if_pos hz] at h
    exfalso
    have hmem : '-' ∈ natChars y.natAbs := h.symm ▸ List.mem_cons_self '-' _
    exact absurd (natChars_mem_digit hmem) (by decide)
  · rw [if_neg hy, if_neg hz] at h
    have := natChars_inj h
    omega

theorem paramChars_mem {q : ℚ} {c : Char} (hc : c ∈ paramChars q) :
    c = '-' ∨ c = '.' ∨ (48 ≤ c.toNat ∧ c.toNat ≤ 57) := by
  unfold paramChars at hc
  by_cases h : q.den = 1
  · rw [if_pos h] at hc
    rcases intChars_mem hc with h' | h'
    · exact Or.inl h'
    · exact Or.inr (Or.inr h')
  · rw [if_neg h] at hc
    rcases List.mem_append.mp hc with h' | h'
    · rcases intChars_mem h' with h'' | h''
      · exact Or.inl h''
      · exact Or.inr (Or.inr h'')
    · rcases List.mem_cons.mp h' with h'' | h''
      · exact Or.inr (Or.inl h'')
      · exact Or.inr (Or.inr (natChars_mem_digit h''))

/-- A separator character occurring in neither prefix splits an equation of
separated concatenations. -/
theorem append_sep_inj {sep : Char} :
    ∀ (l1 l2 r1 r2 : List Char), sep ∉ l1 → sep ∉ l2 →
      l1 ++ sep :: r1 = l2 ++ sep :: r2 → l1 = l2 ∧ r1 = r2 := by
  intro l1
  induction l1 with
  | nil =>
    intro l2 r1 r2 _ h2 h
    cases l2 with
    | nil => simpa using h
    | cons b bs =>
      exfalso
      rw [List.nil_append, List.cons_append] at h
      have hb := (List.cons.inj h).1
      exact h2 (hb ▸ List.mem_cons_self b bs)
  | cons a as ih =>
    intro l2 r1 r2 h1 h2 h
    cases l2 with
    | nil =>
      exfalso
      rw [List.nil_append, List.cons_append] at h
      have ha := (List.cons.inj h).1
      exact h1 (ha ▸ List.mem_cons_self a as)
    | cons b bs =>
      rw [List.cons_append, List.cons_append] at h
      obtain ⟨hab, htail⟩ := List.cons.inj h
      have h1' : sep ∉ as := fun hm => h1 (List.mem_cons_of_mem a hm)
      have h2' : sep ∉ bs := fun hm => h2 (List.mem_cons_of_mem b hm)
      obtain ⟨he, hr⟩ := ih bs r1 r2 h1' h2' htail
      exact ⟨by rw [hab, he], hr⟩

theorem dot_not_mem_intChars (z : ℤ) : '.' ∉ intChars z := by
  intro hm
  rcases intChars_mem hm with h | h
  · exact absurd h (by decide)
  · revert h; decide

theorem paramChars_inj {p q : ℚ} (h : paramChars p = paramChars q) : p = q := by
  unfold paramChars at h
  by_cases hp : p.den = 1 <;> by_cases hq : q.den = 1
  · rw [if_pos hp, if_pos hq] at h
    exact Rat.ext (intChars_inj h) (hp.trans hq.symm)
  · rw [if_pos hp, if_neg hq] at h
    exfalso
    have : '.' ∈ intChars p.num := by
      rw [h]
      exact List.mem_append_right _ (List.mem_cons_self '.' _)
    exact dot_not_mem_intChars p.num this
  · rw [if_neg hp, if_pos hq] at h
    exfalso
    have : '.' ∈ intChars q.num := by
      rw [← h]
      exact List.mem_append_right _ (List.mem_cons_self '.' _)
    exact dot_not_mem_intChars q.num this
  · rw [if_neg hp, if_neg hq] at h
    obtain ⟨h1, h2⟩ := append_sep_inj _ _ _ _
      (dot_not_mem_intChars p.num) (dot_not_mem_intChars q.num) h
    exact Rat.ext (intChars_inj h1) (natChars_inj h2)

theorem underscore_not_mem_paramChars (q : ℚ) : '_' ∉ paramChars q := by
  intro hm
  rcases paramChars_mem hm with h | h | h
  · exact absurd h (by decide)
  · exact absurd h (by decide)
  · revert h; decide

theorem paramChars_ne_h_cons (q : ℚ) (l : List Char) : paramChars q ≠ 'h' :: l := by
  intro h
  have : 'h' ∈ paramChars q := h ▸ List.mem_cons_self 'h' l
  rcases paramChars_mem this with h' | h' | h'
  · exact absurd h' (by decide)
  · exact absurd h' (by decide)
  · revert h'; decide

/-! #### Injectivity of `as_path` -/

/-- The character data of `as_path`, written out as explicit character lists so
that the injectivity proof can proceed by list normalization
(`as_path_data` connects it definitionally to `as_path`). -/
def pathChars : LookupOp → List Char
  | .Ceil s => ['c','e','i','l','_'] ++ paramChars s
  | .Floor s => ['f','l','o','o','r','_'] ++ paramChars s
  | .Round s => ['r','o','u','n','d','_'] ++ paramChars s
  | .RoundHalfToEven s =>
      ['r','o','u','n','d','_','h','a','l','f','_','t','o','_','e','v','e','n','_'] ++
        paramChars s
  | .Pow s a => (['p','o','w','_'] ++ paramChars s ++ ['_']) ++ paramChars a
  | .KroneckerDelta => ['k','r','o','n','e','c','k','e','r','_','d','e','l','t','a']
  | .Div s => ['d','i','v','_'] ++ paramChars s
  | .Cast s => ['c','a','s','t','_'] ++ paramChars s
  | .Recip i o => (['r','e','c','i','p','_'] ++ paramChars i ++ ['_']) ++ paramChars o
  | .LeakyReLU s => ['l','e','a','k','y','_','r','e','l','u','_'] ++ paramChars s
  | .Sigmoid s => ['s','i','g','m','o','i','d','_'] ++ paramChars s
  | .Sqrt s => ['s','q','r','t','_'] ++ paramChars s
  | .Rsqrt s => ['r','s','q','r','t','_'] ++ paramChars s
  | .Erf s => ['e','r','f','_'] ++ paramChars s
  | .Exp s => ['e','x','p','_'] ++ paramChars s
  | .Ln s => ['l','n','_'] ++ paramChars s
  | .Cos s => ['c','o','s','_'] ++ paramChars s
  | .ACos s => ['a','c','o','s','_'] ++ paramChars s
  | .Cosh s => ['c','o','s','h','_'] ++ paramChars s
  | .ACosh s => ['a','c','o','s','h','_'] ++ paramChars s
  | .Sin s => ['s','i','n','_'] ++ paramChars s
  | .ASin s => ['a','s','i','n','_'] ++ paramChars s
  | .Sinh s => ['s','i','n','h','_'] ++ paramChars s
  | .ASinh s => ['a','s','i','n','h','_'] ++ paramChars s
  | .Tan s => ['t','a','n','_'] ++ paramChars s
  | .ATan s => ['a','t','a','n','_'] ++ paramChars s
  | .ATanh s => ['a','t','a','n','h','_'] ++ paramChars s
  | .Tanh s => ['t','a','n','h','_'] ++ paramChars s
  | .HardSwish s => ['h','a','r','d','s','w','i','s','h','_'] ++ paramChars s

theorem as_path_data (op : LookupOp) :
    (LookupOp.as_path op).data = pathChars op := by
  cases op <;> rfl

set_option maxHeartbeats 4000000 in
theorem pathChars_inj (a b : LookupOp) (h : pathChars a = pathChars b) :
    a = b := by
  cases a <;> cases b <;>
    simp_all +decide [pathChars, List.cons_append, List.nil_append,
      List.append_assoc] <;>
  first
  | exact paramChars_inj h
  | exact (paramChars_ne_h_cons _ _ h).elim
  | exact (paramChars_ne_h_cons _ _ h.symm).elim
  | (obtain ⟨h1, h2⟩ := append_sep_inj _ _ _ _
       (underscore_not_mem_paramChars _) (underscore_not_mem_paramChars _) h
     exact ⟨paramChars_inj h1, paramChars_inj h2⟩)

/-- C1: `as_path` is injective with respect to operation equality — two
operations have the same canonical path exactly when they are equal; identical
operations yield the same string, and operations differing in variant tag or
in any parameter value yield different strings. -/
theorem as_path_inj (a b : LookupOp) :
    LookupOp.as_path a = LookupOp.as_path b ↔ a = b := by
  constructor
  · intro h
    apply pathChars_inj
    rw [← as_path_data, ← as_path_data, h]
  · rintro rfl
    rfl

end Ezkl
